import Mathlib

/-!
Verification of the CDL-to-info conversion pipeline (cdl_to_info.py).

The development shallowly embeds the three core components of the program:
the iNES header decoder (`ines_header_decode`), the CDL run segmenter
(`cdl_to_blocks`, built from `groupby` over the enumerated byte list and
`indexed_cdl_byte_to_cdl_chunk`), and the annotation formatter
(`cdl_block_to_info_lines`).  Byte values are `Nat`s (Python ints from a
`memoryview` are in `[0, 255]`; no arithmetic here can overflow, so no
modular reduction is needed).  Byte strings become `List Nat`, text lines
become `List String`, and the `struct.unpack` failure on a wrong-sized
buffer becomes an `Option` result.
-/

/-- Mirrors the `Mirroring` string-enum of the source. -/
inductive Mirroring where
  | HORIZONTAL
  | VERTICAL
  | FOUR_SCREEN
deriving DecidableEq

/-- Mirrors the `CdlByteType` string-enum of the source. -/
inductive CdlByteType where
  | CODE
  | DATA
  | UNACCESSED
deriving DecidableEq

/-- The string value each `CdlByteType` member carries (Python `StrEnum`):
interpolating a member into an f-string yields this text. -/
def byteTypeStr : CdlByteType → String
  | CdlByteType.CODE => "Code"
  | CdlByteType.DATA => "Data"
  | CdlByteType.UNACCESSED => "Unaccessed"

/-- Mirrors the frozen dataclass `INESHeader` of the source. -/
structure INESHeader where
  trainer_start : Nat
  trainer_size_bytes : Nat
  prg_start : Nat
  prg_size_bytes : Nat
  chr_start : Nat
  chr_size_bytes : Nat
  mapper : Nat
  mirroring : Mirroring
  extra_ram : Bool
deriving DecidableEq

/-- Mirrors the frozen dataclass `CdlBlock` of the source. -/
structure CdlBlock where
  rom_address_start : Nat
  rom_address_end : Nat
  byte_type : CdlByteType
deriving DecidableEq

/-- `PRG_DATA = 1 << 1` from the source. -/
def PRG_DATA : Nat := 1 <<< 1

/-- `PRG_CODE = 1 << 0` from the source. -/
def PRG_CODE : Nat := 1 <<< 0

/-- `PRG_CODE_OR_DATA = PRG_DATA | PRG_CODE` from the source. -/
def PRG_CODE_OR_DATA : Nat := PRG_DATA ||| PRG_CODE

/-- `KB = 2 ** 10` from the source. -/
def KB : Nat := 2 ^ 10

/-- `INES_HEADER_LENGTH = 16` from the source. -/
def INES_HEADER_LENGTH : Nat := 16

/-- Embeds `ines_header_decode`.  The source calls
`struct.unpack("4s4B8x", ines_header)`, whose format requires the buffer
to hold exactly `struct.calcsize("4s4B8x") = 16` bytes and raises
`struct.error` otherwise; that failure is modelled by `none`.  On a
16-byte buffer the unpacked fields are: bytes 0-3 the id (unused), byte 4
`prg_size_16kb`, byte 5 `chr_size_8kb`, byte 6 `flags6`, byte 7 `flags7`,
bytes 8-15 padding.  The record fields copy the source expressions
verbatim (Python truthiness of `flags6 & mask` becomes `≠ 0`, and
`bool(flags6 & 0x04) * 512` becomes an if-then-else selecting `1 * 512`
or `0 * 512`). -/
def ines_header_decode (ines_header : List Nat) : Option INESHeader :=
  if ines_header.length = INES_HEADER_LENGTH then
    let prg_size_16kb := ines_header.getD 4 0
    let chr_size_8kb := ines_header.getD 5 0
    let flags6 := ines_header.getD 6 0
    let flags7 := ines_header.getD 7 0
    let prg_size_bytes := (if prg_size_16kb = 0 then 256 else prg_size_16kb) * 16 * KB
    let chr_size_bytes := chr_size_8kb * 8 * KB
    let trainer_size_bytes := (if flags6 &&& 0x04 ≠ 0 then 1 else 0) * 512
    let mirroring := if flags6 &&& 0x08 ≠ 0 then Mirroring.FOUR_SCREEN
      else if flags6 &&& 0x01 ≠ 0 then Mirroring.VERTICAL
      else Mirroring.HORIZONTAL
    some
      { trainer_start := 16
        trainer_size_bytes := trainer_size_bytes
        prg_start := 16 + trainer_size_bytes
        prg_size_bytes := prg_size_bytes
        chr_start := 16 + trainer_size_bytes + trainer_size_bytes
        chr_size_bytes := chr_size_bytes
        mapper := (flags7 &&& 0xf0) ||| (flags6 >>> 4)
        mirroring := mirroring
        extra_ram := flags6 &&& 0x02 ≠ 0 }
  else none

/-- Embeds Python `enumerate` with a starting index: `enumFrom 0 l`
pairs every element of `l` with its index. -/
def enumFrom : Nat → List Nat → List (Nat × Nat)
  | _, [] => []
  | n, x :: xs => (n, x) :: enumFrom (n + 1) xs

/-- The key function `lambda indexed_byte: indexed_byte[1] & PRG_CODE_OR_DATA`
passed to `groupby` in `cdl_to_blocks`. -/
def groupby_key (indexed_byte : Nat × Nat) : Nat :=
  indexed_byte.2 &&& PRG_CODE_OR_DATA

/-- Embeds `itertools.groupby` specialised to `groupby_key`: splits the
list into maximal runs of adjacent elements sharing a key, returning each
run's key together with its elements (the source materialises the lazy
group iterator with `list(...)`). -/
def groupby : List (Nat × Nat) → List (Nat × List (Nat × Nat))
  | [] => []
  | x :: xs =>
    match groupby xs with
    | [] => [(groupby_key x, [x])]
    | (k, g) :: rest =>
      if groupby_key x = k then (k, x :: g) :: rest
      else (groupby_key x, [x]) :: (k, g) :: rest

/-- Embeds `indexed_cdl_byte_to_cdl_chunk`: from a `groupby` group
(key, indexed bytes) it takes the first element's index (`[0][0]`), the
last element's index (`[-1][0]`), and classifies by the group key
(`byte` in the source is the `groupby` key, i.e. the byte already masked
with `PRG_CODE_OR_DATA`).  The `headD`/`getLastD` defaults are never
used: `groupby` groups are nonempty. -/
def indexed_cdl_byte_to_cdl_chunk (indexed_cdl_byte_group : Nat × List (Nat × Nat)) : CdlBlock :=
  let byte := indexed_cdl_byte_group.1
  let indexed_cdl_bytes := indexed_cdl_byte_group.2
  { rom_address_start := (indexed_cdl_bytes.headD (0, 0)).1
    rom_address_end := (indexed_cdl_bytes.getLastD (0, 0)).1
    byte_type := if byte &&& PRG_CODE ≠ 0 then CdlByteType.CODE
      else if byte &&& PRG_DATA ≠ 0 then CdlByteType.DATA
      else CdlByteType.UNACCESSED }

/-- Embeds `cdl_to_blocks`: `groupby` over the enumerated CDL bytes,
each group mapped to a `CdlBlock`. -/
def cdl_to_blocks (cdl : List Nat) : List CdlBlock :=
  (groupby (enumFrom 0 cdl)).map indexed_cdl_byte_to_cdl_chunk

/-- Lowercase hex digit character, as produced by Python's `x` format
(digits `0`-`9` then `a`-`f`). -/
def hexDigitChar (n : Nat) : Char :=
  if n < 10 then Char.ofNat (48 + n) else Char.ofNat (87 + n)

/-- Hex digit list of `n`, most significant first, with explicit fuel
(the first argument); `hexDigitsAux n n` computes the digits of a
positive `n`. -/
def hexDigitsAux : Nat → Nat → List Char
  | 0, _ => []
  | _ + 1, 0 => []
  | fuel + 1, n + 1 => hexDigitsAux fuel ((n + 1) / 16) ++ [hexDigitChar ((n + 1) % 16)]

/-- Hex digit list of `n` (Python renders `0` as `"0"`). -/
def hexDigits (n : Nat) : List Char :=
  if n = 0 then ['0'] else hexDigitsAux n n

/-- Embeds the Python format spec `:04x` used in
`cdl_block_to_info_lines`: lowercase hex, zero-padded on the left to a
minimum width of 4 (wider values are printed in full, not truncated). -/
def format04x (n : Nat) : String :=
  String.mk (List.replicate (4 - (hexDigits n).length) '0' ++ hexDigits n)

/-- Embeds `cdl_block_to_info_lines`: an optional LABEL line (for
`UNACCESSED` or `DATA` blocks) followed by the RANGE line, every address
being `0xC000 +` the block offset rendered with `format04x`. -/
def cdl_block_to_info_lines (cdl_block : CdlBlock) : List String :=
  let label_info :=
    if cdl_block.byte_type = CdlByteType.UNACCESSED ∨ cdl_block.byte_type = CdlByteType.DATA then
      ["LABEL \x7b ADDR $" ++ format04x (0xC000 + cdl_block.rom_address_start)
        ++ "; NAME \"$" ++ format04x (0xC000 + cdl_block.rom_address_start)
        ++ "\"; COMMENT \"" ++ byteTypeStr cdl_block.byte_type ++ "\"; \x7d;"]
    else []
  let range_type := if cdl_block.byte_type = CdlByteType.CODE then "CODE" else "BYTETABLE"
  let range_info :=
    ["RANGE \x7b START $" ++ format04x (0xC000 + cdl_block.rom_address_start)
      ++ "; END $" ++ format04x (0xC000 + cdl_block.rom_address_end)
      ++ "; TYPE " ++ range_type ++ "; \x7d;"]
  label_info ++ range_info

/-- The output lines of the core pipeline on an already-sliced CDL byte
sequence: `chain(*map(cdl_block_to_info_lines, cdl_blocks))` in `main`. -/
def cdl_info_lines (cdl : List Nat) : List String :=
  ((cdl_to_blocks cdl).map cdl_block_to_info_lines).flatten

/-- The CDL byte at offset `i` (list indexing; the default is never
reached at in-range offsets). -/
def byteAt (cdl : List Nat) (i : Nat) : Nat :=
  cdl.getD i 0

/-- Analysis view of `groupby` over an enumerated list, fused to the
fields `indexed_cdl_byte_to_cdl_chunk` reads: each maximal run becomes
`(key, first index, last index)`.  `groupRuns key start last l` processes
the bytes `l` that follow index `last`, with a current run of key `key`
spanning indices `start..last`.  `groupby_eq_groupRuns` below proves it
agrees with the `groupby`-based definition. -/
def groupRuns : Nat → Nat → Nat → List Nat → List (Nat × Nat × Nat)
  | key, start, last, [] => [(key, start, last)]
  | key, start, last, b :: rest =>
    if b &&& PRG_CODE_OR_DATA = key then groupRuns key start (last + 1) rest
    else (key, start, last) :: groupRuns (b &&& PRG_CODE_OR_DATA) (last + 1) (last + 1) rest

/-- The block a `groupRuns` triple denotes (same classification rule as
`indexed_cdl_byte_to_cdl_chunk`). -/
def runBlock (g : Nat × Nat × Nat) : CdlBlock :=
  { rom_address_start := g.2.1
    rom_address_end := g.2.2
    byte_type := if g.1 &&& PRG_CODE ≠ 0 then CdlByteType.CODE
      else if g.1 &&& PRG_DATA ≠ 0 then CdlByteType.DATA
      else CdlByteType.UNACCESSED }

/-- The sixteen characters Python's lowercase hex format can emit. -/
def lowerHexDigits : List Char :=
  "0123456789abcdef".toList

lemma hexDigitsAux_zero (f : Nat) : hexDigitsAux f 0 = [] := by
  cases f <;> rfl

lemma hexDigitsAux_fuel : ∀ f g n, n ≤ f → n ≤ g → hexDigitsAux f n = hexDigitsAux g n := by
  intro f
  induction f with
  | zero =>
    intro g n hf _
    have hn : n = 0 := by omega
    subst hn
    rw [hexDigitsAux_zero, hexDigitsAux_zero]
  | succ f ih =>
    intro g n hf hg
    cases n with
    | zero => rw [hexDigitsAux_zero, hexDigitsAux_zero]
    | succ m =>
      cases g with
      | zero => omega
      | succ g2 =>
        simp only [hexDigitsAux]
        congr 1
        exact ih g2 ((m + 1) / 16) (by omega) (by omega)

lemma hexDigits_step (n : Nat) (h1 : 1 ≤ n) :
    hexDigitsAux n n = hexDigitsAux (n / 16) (n / 16) ++ [hexDigitChar (n % 16)] := by
  cases n with
  | zero => omega
  | succ m =>
    simp only [hexDigitsAux]
    congr 1
    exact hexDigitsAux_fuel m ((m + 1) / 16) ((m + 1) / 16) (by omega) (Nat.le_refl _)

lemma hexDigitsAux_small (n : Nat) (h1 : 1 ≤ n) (h2 : n < 16) :
    hexDigitsAux n n = [hexDigitChar (n % 16)] := by
  rw [hexDigits_step n h1]
  have h0 : n / 16 = 0 := by omega
  rw [h0, hexDigitsAux_zero, List.nil_append]

lemma hexDigits_length4 (n : Nat) (h1 : 4096 ≤ n) (h2 : n < 65536) :
    (hexDigits n).length = 4 := by
  have hn : ¬ n = 0 := by omega
  rw [hexDigits, if_neg hn]
  rw [hexDigits_step n (by omega)]
  rw [hexDigits_step (n / 16) (by omega)]
  rw [hexDigits_step (n / 16 / 16) (by omega)]
  rw [hexDigitsAux_small (n / 16 / 16 / 16) (by omega) (by omega)]
  simp

lemma format04x_length4 (n : Nat) (h1 : 4096 ≤ n) (h2 : n < 65536) :
    (format04x n).length = 4 := by
  have hl := hexDigits_length4 n h1 h2
  show (List.replicate (4 - (hexDigits n).length) '0' ++ hexDigits n).length = 4
  rw [List.length_append, List.length_replicate, hl]

lemma hexDigitChar_mem : ∀ k, k < 16 → hexDigitChar k ∈ lowerHexDigits := by decide

lemma hexDigitsAux_chars : ∀ f n c, c ∈ hexDigitsAux f n → c ∈ lowerHexDigits := by
  intro f
  induction f with
  | zero => intro n c hc; simp [hexDigitsAux] at hc
  | succ f ih =>
    intro n c hc
    cases n with
    | zero => rw [hexDigitsAux_zero] at hc; cases hc
    | succ m =>
      simp only [hexDigitsAux, List.mem_append, List.mem_singleton] at hc
      rcases hc with hc | hc
      · exact ih _ _ hc
      · subst hc; exact hexDigitChar_mem _ (by omega)

lemma format04x_chars (n : Nat) (c : Char) (hc : c ∈ (format04x n).data) :
    c ∈ lowerHexDigits := by
  have hc2 : c ∈ List.replicate (4 - (hexDigits n).length) '0' ++ hexDigits n := hc
  rcases List.mem_append.mp hc2 with h | h
  · rw [List.eq_of_mem_replicate h]; decide
  · rw [hexDigits] at h
    by_cases h0 : n = 0
    · rw [if_pos h0] at h
      simp at h
      rw [h]; decide
    · rw [if_neg h0] at h
      exact hexDigitsAux_chars n n c h

lemma cdl_block_lines_eq (b : CdlBlock) :
    cdl_block_to_info_lines b =
      (if b.byte_type = CdlByteType.CODE then []
       else ["LABEL \x7b ADDR $" ++ format04x (0xC000 + b.rom_address_start)
         ++ "; NAME \"$" ++ format04x (0xC000 + b.rom_address_start)
         ++ "\"; COMMENT \"" ++ byteTypeStr b.byte_type ++ "\"; \x7d;"])
      ++ ["RANGE \x7b START $" ++ format04x (0xC000 + b.rom_address_start)
         ++ "; END $" ++ format04x (0xC000 + b.rom_address_end)
         ++ "; TYPE " ++ (if b.byte_type = CdlByteType.CODE then "CODE" else "BYTETABLE")
         ++ "; \x7d;"] := by
  obtain ⟨s, e, t⟩ := b
  cases t <;> simp [cdl_block_to_info_lines]

/-- C7: for every 16-byte header the decoded `prg_size_bytes` is
`16384 * (256 if byte 4 is 0 else byte 4)`, hence strictly positive and a
multiple of 16KB, with byte 4 = 0 giving exactly 4194304. -/
theorem C7_prg_size (h : List Nat) (hlen : h.length = 16) :
    ∃ hdr, ines_header_decode h = some hdr
      ∧ hdr.prg_size_bytes = 16384 * (if h.getD 4 0 = 0 then 256 else h.getD 4 0)
      ∧ 0 < hdr.prg_size_bytes
      ∧ hdr.prg_size_bytes % 16384 = 0
      ∧ (h.getD 4 0 = 0 → hdr.prg_size_bytes = 4194304) := by
  have hlen2 : h.length = INES_HEADER_LENGTH := hlen
  rw [ines_header_decode, if_pos hlen2]
  refine ⟨_, rfl, ?_, ?_, ?_, ?_⟩
  · by_cases h4 : h.getD 4 0 = 0
    · rw [if_pos h4]; norm_num [KB]
    · rw [if_neg h4]; simp only [KB]; ring
  · by_cases h4 : h.getD 4 0 = 0
    · rw [if_pos h4]; norm_num [KB]
    · rw [if_neg h4]
      exact Nat.mul_pos (Nat.mul_pos (Nat.pos_of_ne_zero h4) (by norm_num)) (by norm_num [KB])
  · show (if h.getD 4 0 = 0 then 256 else h.getD 4 0) * 16 * KB % 16384 = 0
    rw [Nat.mul_assoc, show 16 * KB = 16384 from by norm_num [KB]]
    exact Nat.mul_mod_left _ _
  · intro h4
    rw [if_pos h4]; norm_num [KB]

/-- C8: for every 16-byte header the decoded mirroring is FourScreen when
flags6 bit 3 is set, else Vertical when bit 0 is set, else Horizontal; in
particular flags6 = 0x09 yields FourScreen, not Vertical. -/
theorem C8_mirroring (h : List Nat) (hlen : h.length = 16) :
    ∃ hdr, ines_header_decode h = some hdr
      ∧ hdr.mirroring = (if h.getD 6 0 &&& 8 ≠ 0 then Mirroring.FOUR_SCREEN
          else if h.getD 6 0 &&& 1 ≠ 0 then Mirroring.VERTICAL
          else Mirroring.HORIZONTAL)
      ∧ (h.getD 6 0 = 9 → hdr.mirroring = Mirroring.FOUR_SCREEN) := by
  have hlen2 : h.length = INES_HEADER_LENGTH := hlen
  rw [ines_header_decode, if_pos hlen2]
  refine ⟨_, rfl, rfl, ?_⟩
  intro h6
  show (if h.getD 6 0 &&& 8 ≠ 0 then Mirroring.FOUR_SCREEN
    else if h.getD 6 0 &&& 1 ≠ 0 then Mirroring.VERTICAL
    else Mirroring.HORIZONTAL) = Mirroring.FOUR_SCREEN
  rw [h6]
  rfl

/-- C8 witness: a concrete 16-byte header with flags6 = 9 decodes to
FourScreen mirroring. -/
theorem C8_mirroring_witness :
    ∃ hdr, ines_header_decode [78, 69, 83, 26, 2, 1, 9, 0, 0, 0, 0, 0, 0, 0, 0, 0] = some hdr
      ∧ hdr.mirroring = Mirroring.FOUR_SCREEN := by
  obtain ⟨hdr, h1, _h2, h3⟩ :=
    C8_mirroring [78, 69, 83, 26, 2, 1, 9, 0, 0, 0, 0, 0, 0, 0, 0, 0] (by decide)
  exact ⟨hdr, h1, h3 (by decide)⟩

/-- C7 witness: a concrete 16-byte header with PRG units byte 0 decodes
to a 4MB PRG size. -/
theorem C7_prg_size_witness :
    ∃ hdr, ines_header_decode (List.replicate 16 0) = some hdr
      ∧ hdr.prg_size_bytes = 4194304 := by
  obtain ⟨hdr, h1, _h2, _h3, _h4, h5⟩ := C7_prg_size (List.replicate 16 0) (by decide)
  exact ⟨hdr, h1, h5 (by decide)⟩

/-- C10: the header decoder fails on every buffer whose length is not
exactly 16 bytes (`struct.unpack` raises `struct.error`, modelled by
`none`), so no partially decoded header is ever produced. -/
theorem C10_header_length (h : List Nat) (hlen : h.length ≠ 16) :
    ines_header_decode h = none := by
  have hlen2 : ¬ h.length = INES_HEADER_LENGTH := hlen
  rw [ines_header_decode, if_neg hlen2]

/-- C10 witness: a 17-byte buffer (longer than a header) is rejected. -/
theorem C10_header_length_witness :
    ines_header_decode (List.replicate 17 0) = none :=
  C10_header_length (List.replicate 17 0) (by decide)

/-- C4: a CDL byte's classification follows bit 0 (Code, regardless of
bit 1), then bit 1 (Data), else Unaccessed, and depends only on the low
two bits of the byte — the classification of the pipeline's group key
`b &&& PRG_CODE_OR_DATA` is invariant under any change outside `b &&& 3`. -/
theorem C4_classification (b : Nat) (l : List (Nat × Nat)) :
    ((indexed_cdl_byte_to_cdl_chunk (b &&& PRG_CODE_OR_DATA, l)).byte_type
        = if b &&& PRG_CODE ≠ 0 then CdlByteType.CODE
          else if b &&& PRG_DATA ≠ 0 then CdlByteType.DATA
          else CdlByteType.UNACCESSED)
    ∧ ∀ c : Nat, b &&& 3 = c &&& 3 →
        (indexed_cdl_byte_to_cdl_chunk (b &&& PRG_CODE_OR_DATA, l)).byte_type
          = (indexed_cdl_byte_to_cdl_chunk (c &&& PRG_CODE_OR_DATA, l)).byte_type := by
  constructor
  · show (if (b &&& PRG_CODE_OR_DATA) &&& PRG_CODE ≠ 0 then CdlByteType.CODE
      else if (b &&& PRG_CODE_OR_DATA) &&& PRG_DATA ≠ 0 then CdlByteType.DATA
      else CdlByteType.UNACCESSED) = _
    rw [Nat.and_assoc, Nat.and_assoc,
      show PRG_CODE_OR_DATA &&& PRG_CODE = PRG_CODE from by decide,
      show PRG_CODE_OR_DATA &&& PRG_DATA = PRG_DATA from by decide]
  · intro c hbc
    have hmask : b &&& PRG_CODE_OR_DATA = c &&& PRG_CODE_OR_DATA := by
      rw [show PRG_CODE_OR_DATA = 3 from by decide]
      exact hbc
    rw [hmask]

/-- C4 witness: bytes 0xFF and 0x03 agree on their low two bits, so they
classify identically. -/
theorem C4_classification_witness :
    (indexed_cdl_byte_to_cdl_chunk (0xFF &&& PRG_CODE_OR_DATA, ([] : List (Nat × Nat)))).byte_type
      = (indexed_cdl_byte_to_cdl_chunk (0x03 &&& PRG_CODE_OR_DATA, ([] : List (Nat × Nat)))).byte_type :=
  (C4_classification 0xFF []).2 0x03 (by decide)

/-- C5: every block yields exactly one RANGE line, typed CODE for Code
blocks and BYTETABLE otherwise, preceded for non-Code blocks by exactly
one LABEL line whose COMMENT is the kind's literal name; concretely a
Code block over offsets 0-1 and a Data block at offset 2 render as the
spec's example lines. -/
theorem C5_formatting :
    (∀ b : CdlBlock, cdl_block_to_info_lines b =
      (if b.byte_type = CdlByteType.CODE then []
       else ["LABEL \x7b ADDR $" ++ format04x (0xC000 + b.rom_address_start)
         ++ "; NAME \"$" ++ format04x (0xC000 + b.rom_address_start)
         ++ "\"; COMMENT \"" ++ byteTypeStr b.byte_type ++ "\"; \x7d;"])
      ++ ["RANGE \x7b START $" ++ format04x (0xC000 + b.rom_address_start)
         ++ "; END $" ++ format04x (0xC000 + b.rom_address_end)
         ++ "; TYPE " ++ (if b.byte_type = CdlByteType.CODE then "CODE" else "BYTETABLE")
         ++ "; \x7d;"])
    ∧ cdl_block_to_info_lines ⟨0, 1, CdlByteType.CODE⟩
        = ["RANGE \x7b START $c000; END $c001; TYPE CODE; \x7d;"]
    ∧ cdl_block_to_info_lines ⟨2, 2, CdlByteType.DATA⟩
        = ["LABEL \x7b ADDR $c002; NAME \"$c002\"; COMMENT \"Data\"; \x7d;",
           "RANGE \x7b START $c002; END $c002; TYPE BYTETABLE; \x7d;"] :=
  ⟨cdl_block_lines_eq, by decide, by decide⟩

lemma groupRuns_start_pair : ∀ (l : List Nat) (key last s s2 : Nat),
    ∃ e t, groupRuns key s last l = (key, s, e) :: t
      ∧ groupRuns key s2 last l = (key, s2, e) :: t ∧ last ≤ e := by
  intro l
  induction l with
  | nil =>
    intro key last s s2
    exact ⟨last, [], rfl, rfl, Nat.le_refl _⟩
  | cons b rest ih =>
    intro key last s s2
    by_cases hb : b &&& PRG_CODE_OR_DATA = key
    · obtain ⟨e, t, h1, h2, h3⟩ := ih key (last + 1) s s2
      refine ⟨e, t, ?_, ?_, by omega⟩
      · simp only [groupRuns, if_pos hb]; exact h1
      · simp only [groupRuns, if_pos hb]; exact h2
    · refine ⟨last, groupRuns (b &&& PRG_CODE_OR_DATA) (last + 1) (last + 1) rest, ?_, ?_,
        Nat.le_refl _⟩
      · simp only [groupRuns, if_neg hb]
      · simp only [groupRuns, if_neg hb]

lemma groupby_cons_eq (x : Nat × Nat) (xs : List (Nat × Nat)) (k : Nat)
    (g : List (Nat × Nat)) (rest : List (Nat × List (Nat × Nat)))
    (hgs : groupby xs = (k, g) :: rest) :
    groupby (x :: xs) = if groupby_key x = k then (k, x :: g) :: rest
      else (groupby_key x, [x]) :: (k, g) :: rest := by
  simp only [groupby, hgs]

lemma groupby_cons_head (x : Nat × Nat) (xs : List (Nat × Nat)) :
    ∃ g rest, groupby (x :: xs) = (groupby_key x, x :: g) :: rest := by
  cases hgs : groupby xs with
  | nil => exact ⟨[], [], by simp only [groupby, hgs]⟩
  | cons p rest =>
    obtain ⟨k, g⟩ := p
    by_cases hk : groupby_key x = k
    · refine ⟨g, rest, ?_⟩
      rw [groupby_cons_eq x xs k g rest hgs, if_pos hk, hk]
    · refine ⟨[], (k, g) :: rest, ?_⟩
      rw [groupby_cons_eq x xs k g rest hgs, if_neg hk]

lemma groupby_eq_groupRuns : ∀ (vals : List Nat) (v n : Nat),
    (groupby (enumFrom n (v :: vals))).map indexed_cdl_byte_to_cdl_chunk
      = (groupRuns (v &&& PRG_CODE_OR_DATA) n n vals).map runBlock := by
  intro vals
  induction vals with
  | nil => intro v n; rfl
  | cons w ws ih =>
    intro v n
    have henum : enumFrom n (v :: w :: ws) = (n, v) :: (n + 1, w) :: enumFrom (n + 2) ws := rfl
    have henum2 : enumFrom (n + 1) (w :: ws) = (n + 1, w) :: enumFrom (n + 2) ws := rfl
    obtain ⟨g, rest, hg⟩ := groupby_cons_head (n + 1, w) (enumFrom (n + 2) ws)
    have hkeyw : groupby_key (n + 1, w) = w &&& PRG_CODE_OR_DATA := rfl
    rw [hkeyw] at hg
    have ihw := ih w (n + 1)
    rw [henum2] at ihw
    obtain ⟨e, t, hr1, hr2, _he⟩ :=
      groupRuns_start_pair ws (w &&& PRG_CODE_OR_DATA) (n + 1) n (n + 1)
    rw [henum, groupby_cons_eq (n, v) ((n + 1, w) :: enumFrom (n + 2) ws)
      (w &&& PRG_CODE_OR_DATA) ((n + 1, w) :: g) rest hg]
    rw [show groupby_key (n, v) = v &&& PRG_CODE_OR_DATA from rfl]
    simp only [groupRuns]
    by_cases hk : v &&& PRG_CODE_OR_DATA = w &&& PRG_CODE_OR_DATA
    · rw [if_pos hk, if_pos hk.symm]
      have ihw2 := ihw
      rw [hg, hr2, List.map_cons, List.map_cons] at ihw2
      injection ihw2 with hhead htail
      have hend : (((n + 1, w) :: g).getLastD ((0 : Nat), (0 : Nat))).1 = e :=
        congrArg CdlBlock.rom_address_end hhead
      rw [hk, hr1, List.map_cons, List.map_cons, htail]
      have hlast : ((n, v) :: (n + 1, w) :: g).getLastD ((0 : Nat), (0 : Nat))
          = ((n + 1, w) :: g).getLastD ((0 : Nat), (0 : Nat)) := by
        simp only [List.getLastD_cons]
      have h1 : (((n, v) :: (n + 1, w) :: g).getLastD ((0 : Nat), (0 : Nat))).1 = e := by
        rw [hlast]
        exact hend
      have hhead2 : indexed_cdl_byte_to_cdl_chunk
            (w &&& PRG_CODE_OR_DATA, (n, v) :: (n + 1, w) :: g)
          = runBlock (w &&& PRG_CODE_OR_DATA, n, e) :=
        congrArg (fun x => CdlBlock.mk n x
          (if (w &&& PRG_CODE_OR_DATA) &&& PRG_CODE ≠ 0 then CdlByteType.CODE
            else if (w &&& PRG_CODE_OR_DATA) &&& PRG_DATA ≠ 0 then CdlByteType.DATA
            else CdlByteType.UNACCESSED)) h1
      rw [hhead2]
    · rw [if_neg hk, if_neg (fun hh => hk hh.symm)]
      have hheadv : indexed_cdl_byte_to_cdl_chunk (v &&& PRG_CODE_OR_DATA, [(n, v)])
          = runBlock (v &&& PRG_CODE_OR_DATA, n, n) := rfl
      have hsplit : ((v &&& PRG_CODE_OR_DATA, [(n, v)])
            :: (w &&& PRG_CODE_OR_DATA, (n + 1, w) :: g) :: rest).map indexed_cdl_byte_to_cdl_chunk
          = indexed_cdl_byte_to_cdl_chunk (v &&& PRG_CODE_OR_DATA, [(n, v)])
            :: (groupby ((n + 1, w) :: enumFrom (n + 2) ws)).map indexed_cdl_byte_to_cdl_chunk := by
        rw [hg, List.map_cons]
      rw [hsplit, ihw, hheadv]
      rfl

lemma cdl_to_blocks_cons (v : Nat) (vals : List Nat) :
    cdl_to_blocks (v :: vals)
      = (groupRuns (v &&& PRG_CODE_OR_DATA) 0 0 vals).map runBlock :=
  groupby_eq_groupRuns vals v 0

lemma groupRuns_le : ∀ (l : List Nat) (key s last : Nat), s ≤ last →
    ∀ g ∈ groupRuns key s last l, g.2.1 ≤ g.2.2 := by
  intro l
  induction l with
  | nil =>
    intro key s last hsl g hg
    simp only [groupRuns, List.mem_singleton] at hg
    subst hg
    exact hsl
  | cons b rest ih =>
    intro key s last hsl g hg
    by_cases hb : b &&& PRG_CODE_OR_DATA = key
    · simp only [groupRuns, if_pos hb] at hg
      exact ih key s (last + 1) (by omega) g hg
    · simp only [groupRuns, if_neg hb, List.mem_cons] at hg
      rcases hg with hg | hg
      · subst hg; exact hsl
      · exact ih _ (last + 1) (last + 1) (Nat.le_refl _) g hg

lemma groupRuns_chain : ∀ (l : List Nat) (key s last : Nat),
    List.Chain' (fun g1 g2 => g2.2.1 = g1.2.2 + 1) (groupRuns key s last l) := by
  intro l
  induction l with
  | nil => intro key s last; exact List.chain'_singleton _
  | cons b rest ih =>
    intro key s last
    by_cases hb : b &&& PRG_CODE_OR_DATA = key
    · simp only [groupRuns, if_pos hb]
      exact ih key s (last + 1)
    · simp only [groupRuns, if_neg hb]
      obtain ⟨e, t, h1, _h2, _h3⟩ :=
        groupRuns_start_pair rest (b &&& PRG_CODE_OR_DATA) (last + 1) (last + 1) (last + 1)
      rw [h1, List.chain'_cons]
      exact ⟨rfl, h1 ▸ ih (b &&& PRG_CODE_OR_DATA) (last + 1) (last + 1)⟩

lemma groupRuns_last : ∀ (l : List Nat) (key s last : Nat),
    ∃ k2 s2 pre, groupRuns key s last l = pre ++ [(k2, s2, last + l.length)] := by
  intro l
  induction l with
  | nil =>
    intro key s last
    exact ⟨key, s, [], by simp [groupRuns]⟩
  | cons b rest ih =>
    intro key s last
    by_cases hb : b &&& PRG_CODE_OR_DATA = key
    · obtain ⟨k2, s2, pre, h⟩ := ih key s (last + 1)
      refine ⟨k2, s2, pre, ?_⟩
      simp only [groupRuns, if_pos hb, List.length_cons]
      rw [h, show last + 1 + rest.length = last + (rest.length + 1) from by omega]
    · obtain ⟨k2, s2, pre, h⟩ := ih (b &&& PRG_CODE_OR_DATA) (last + 1) (last + 1)
      refine ⟨k2, s2, (key, s, last) :: pre, ?_⟩
      simp only [groupRuns, if_neg hb, List.length_cons]
      rw [h, show last + 1 + rest.length = last + (rest.length + 1) from by omega, List.cons_append]

lemma groupRuns_keys_ne : ∀ (l : List Nat) (key s last : Nat),
    List.Chain' (fun g1 g2 => g1.1 ≠ g2.1) (groupRuns key s last l) := by
  intro l
  induction l with
  | nil => intro key s last; exact List.chain'_singleton _
  | cons b rest ih =>
    intro key s last
    by_cases hb : b &&& PRG_CODE_OR_DATA = key
    · simp only [groupRuns, if_pos hb]
      exact ih key s (last + 1)
    · simp only [groupRuns, if_neg hb]
      obtain ⟨e, t, h1, _h2, _h3⟩ :=
        groupRuns_start_pair rest (b &&& PRG_CODE_OR_DATA) (last + 1) (last + 1) (last + 1)
      rw [h1, List.chain'_cons]
      exact ⟨fun hh => hb hh.symm, h1 ▸ ih (b &&& PRG_CODE_OR_DATA) (last + 1) (last + 1)⟩

lemma drop_cons_facts : ∀ (cdl : List Nat) (n b : Nat) (rest : List Nat),
    cdl.drop n = b :: rest → byteAt cdl n = b ∧ cdl.drop (n + 1) = rest := by
  intro cdl
  induction cdl with
  | nil =>
    intro n b rest h
    rw [List.drop_nil] at h
    cases h
  | cons c cs ih =>
    intro n b rest h
    cases n with
    | zero =>
      rw [List.drop_zero] at h
      injection h with h1 h2
      subst h1
      subst h2
      exact ⟨rfl, rfl⟩
    | succ m =>
      rw [List.drop_succ_cons] at h
      obtain ⟨h1, h2⟩ := ih m b rest h
      exact ⟨h1, h2⟩

lemma groupRuns_key_bytes : ∀ (l cdl : List Nat) (key s last : Nat),
    (∀ i, s ≤ i → i ≤ last → byteAt cdl i &&& PRG_CODE_OR_DATA = key) →
    l = cdl.drop (last + 1) →
    ∀ g ∈ groupRuns key s last l, ∀ i, g.2.1 ≤ i → i ≤ g.2.2 →
      byteAt cdl i &&& PRG_CODE_OR_DATA = g.1 := by
  intro l
  induction l with
  | nil =>
    intro cdl key s last hkey _ g hg i h1 h2
    simp only [groupRuns, List.mem_singleton] at hg
    subst hg
    exact hkey i h1 h2
  | cons b rest ih =>
    intro cdl key s last hkey hdrop g hg i h1 h2
    obtain ⟨hb1, hb2⟩ := drop_cons_facts cdl (last + 1) b rest hdrop.symm
    by_cases hb : b &&& PRG_CODE_OR_DATA = key
    · simp only [groupRuns, if_pos hb] at hg
      refine ih cdl key s (last + 1) ?_ hb2.symm g hg i h1 h2
      intro j hj1 hj2
      rcases Nat.lt_or_ge j (last + 1) with hj | hj
      · exact hkey j hj1 (by omega)
      · have hje : j = last + 1 := by omega
        subst hje
        rw [hb1]
        exact hb
    · simp only [groupRuns, if_neg hb, List.mem_cons] at hg
      rcases hg with hg | hg
      · subst hg
        exact hkey i h1 h2
      · refine ih cdl (b &&& PRG_CODE_OR_DATA) (last + 1) (last + 1) ?_ hb2.symm g hg i h1 h2
        intro j hj1 hj2
        have hje : j = last + 1 := by omega
        subst hje
        rw [hb1]

lemma cdl_to_blocks_nil : cdl_to_blocks [] = [] := rfl

lemma blocks_key_bytes (cdl : List Nat) :
    ∀ b ∈ cdl_to_blocks cdl, ∀ i, b.rom_address_start ≤ i → i ≤ b.rom_address_end →
      byteAt cdl i &&& PRG_CODE_OR_DATA
        = byteAt cdl b.rom_address_start &&& PRG_CODE_OR_DATA := by
  cases cdl with
  | nil =>
    intro b hb
    rw [cdl_to_blocks_nil] at hb
    cases hb
  | cons v vals =>
    intro b hb i h1 h2
    rw [cdl_to_blocks_cons] at hb
    obtain ⟨g, hgmem, hgb⟩ := List.mem_map.mp hb
    obtain ⟨gk, gs, ge⟩ := g
    subst hgb
    have hkey0 : ∀ j, (0 : Nat) ≤ j → j ≤ 0 →
        byteAt (v :: vals) j &&& PRG_CODE_OR_DATA = v &&& PRG_CODE_OR_DATA := by
      intro j _ hj
      have hj0 : j = 0 := by omega
      subst hj0
      rfl
    have hbytes := groupRuns_key_bytes vals (v :: vals) (v &&& PRG_CODE_OR_DATA) 0 0
      hkey0 rfl (gk, gs, ge) hgmem
    have hse := groupRuns_le vals (v &&& PRG_CODE_OR_DATA) 0 0 (Nat.le_refl 0) (gk, gs, ge) hgmem
    have e1 := hbytes i h1 h2
    have e2 := hbytes gs (Nat.le_refl _) hse
    show byteAt (v :: vals) i &&& PRG_CODE_OR_DATA = byteAt (v :: vals) gs &&& PRG_CODE_OR_DATA
    rw [e1, e2]

lemma blocks_chain_key (cdl : List Nat) :
    List.Chain' (fun b1 b2 =>
      byteAt cdl b1.rom_address_start &&& PRG_CODE_OR_DATA
        ≠ byteAt cdl b2.rom_address_start &&& PRG_CODE_OR_DATA) (cdl_to_blocks cdl) := by
  cases cdl with
  | nil => rw [cdl_to_blocks_nil]; exact List.chain'_nil
  | cons v vals =>
    rw [cdl_to_blocks_cons]
    have hkey0 : ∀ j, (0 : Nat) ≤ j → j ≤ 0 →
        byteAt (v :: vals) j &&& PRG_CODE_OR_DATA = v &&& PRG_CODE_OR_DATA := by
      intro j _ hj
      have hj0 : j = 0 := by omega
      subst hj0
      rfl
    have hstart : ∀ g ∈ groupRuns (v &&& PRG_CODE_OR_DATA) 0 0 vals,
        byteAt (v :: vals) g.2.1 &&& PRG_CODE_OR_DATA = g.1 := by
      intro g hg
      exact groupRuns_key_bytes vals (v :: vals) (v &&& PRG_CODE_OR_DATA) 0 0 hkey0 rfl g hg
        g.2.1 (Nat.le_refl _) (groupRuns_le vals (v &&& PRG_CODE_OR_DATA) 0 0 (Nat.le_refl 0) g hg)
    have hne := groupRuns_keys_ne vals (v &&& PRG_CODE_OR_DATA) 0 0
    have hchain : List.Chain' (fun g1 g2 =>
        byteAt (v :: vals) g1.2.1 &&& PRG_CODE_OR_DATA
          ≠ byteAt (v :: vals) g2.2.1 &&& PRG_CODE_OR_DATA)
        (groupRuns (v &&& PRG_CODE_OR_DATA) 0 0 vals) := by
      rw [List.chain'_iff_get] at hne ⊢
      intro i hi
      have m1 := List.get_mem (groupRuns (v &&& PRG_CODE_OR_DATA) 0 0 vals) i (by omega)
      have m2 := List.get_mem (groupRuns (v &&& PRG_CODE_OR_DATA) 0 0 vals) (i + 1) (by omega)
      intro heq
      exact hne i hi (((hstart _ m1).symm.trans heq).trans (hstart _ m2))
    rw [List.chain'_map]
    exact hchain

/-- C1 counterexample: on the empty CDL sequence the segmenter does not
fail — it returns a (possibly empty) range sequence, namely the empty
one; no EmptyInput error exists anywhere in the code. -/
theorem C1_counterexample : cdl_to_blocks ([] : List Nat) = ([] : List CdlBlock) := rfl

/-- C1 (amended): a CDL byte sequence of length 0 produces zero output
lines, but the pipeline does not fail: the segmenter totally returns the
empty range sequence. -/
theorem C1_empty_pipeline : cdl_info_lines ([] : List Nat) = ([] : List String) := rfl

/-- C2 counterexample: the input bytes 0x01, 0x03 both classify as Code
yet fall in distinct `byte &&& 3` groups, so the output has two
consecutive ranges of the same kind, refuting maximality with respect to
the Code/Data/Unaccessed classification. -/
theorem C2_counterexample :
    cdl_to_blocks [1, 3] = [⟨0, 0, CdlByteType.CODE⟩, ⟨1, 1, CdlByteType.CODE⟩]
    ∧ ¬ List.Chain' (fun b1 b2 => b1.byte_type ≠ b2.byte_type) (cdl_to_blocks [1, 3]) := by
  have heq : cdl_to_blocks [1, 3] = [⟨0, 0, CdlByteType.CODE⟩, ⟨1, 1, CdlByteType.CODE⟩] := by
    decide
  refine ⟨heq, ?_⟩
  intro hch
  rw [heq, List.chain'_cons] at hch
  exact hch.1 rfl

/-- C2 (amended): ranges are maximal with respect to the two-bit
classification key `byte &&& (CODE|DATA)`: no two consecutive ranges in
the output start with bytes sharing that key. -/
theorem C2_maximal_runs (cdl : List Nat) :
    List.Chain' (fun b1 b2 =>
      byteAt cdl b1.rom_address_start &&& PRG_CODE_OR_DATA
        ≠ byteAt cdl b2.rom_address_start &&& PRG_CODE_OR_DATA) (cdl_to_blocks cdl) :=
  blocks_chain_key cdl

/-- C3: for a non-empty CDL sequence of length N the ranges are nonempty,
start at offset 0, have startOffset ≤ endOffset, chain each next range at
the previous range's endOffset + 1, and the final range ends at N - 1 —
together covering every offset exactly once in ascending order. -/
theorem C3_coverage (cdl : List Nat) (hne : cdl ≠ []) :
    cdl_to_blocks cdl ≠ []
    ∧ (∃ b0 t, cdl_to_blocks cdl = b0 :: t ∧ b0.rom_address_start = 0)
    ∧ (∀ b ∈ cdl_to_blocks cdl, b.rom_address_start ≤ b.rom_address_end)
    ∧ List.Chain' (fun b1 b2 => b2.rom_address_start = b1.rom_address_end + 1)
        (cdl_to_blocks cdl)
    ∧ (∃ pre bl, cdl_to_blocks cdl = pre ++ [bl] ∧ bl.rom_address_end = cdl.length - 1) := by
  cases cdl with
  | nil => exact absurd rfl hne
  | cons v vals =>
    obtain ⟨e, t, h1, _h2, _h3⟩ :=
      groupRuns_start_pair vals (v &&& PRG_CODE_OR_DATA) 0 0 0
    refine ⟨?_, ?_, ?_, ?_, ?_⟩
    · rw [cdl_to_blocks_cons, h1]
      simp
    · refine ⟨runBlock (v &&& PRG_CODE_OR_DATA, 0, e), (t.map runBlock), ?_, rfl⟩
      rw [cdl_to_blocks_cons, h1, List.map_cons]
    · intro b hb
      rw [cdl_to_blocks_cons] at hb
      obtain ⟨g, hgmem, hgb⟩ := List.mem_map.mp hb
      obtain ⟨gk, gs, ge⟩ := g
      subst hgb
      exact groupRuns_le vals (v &&& PRG_CODE_OR_DATA) 0 0 (Nat.le_refl 0) (gk, gs, ge) hgmem
    · rw [cdl_to_blocks_cons, List.chain'_map]
      exact groupRuns_chain vals (v &&& PRG_CODE_OR_DATA) 0 0
    · obtain ⟨k2, s2, pre, hlast⟩ := groupRuns_last vals (v &&& PRG_CODE_OR_DATA) 0 0
      refine ⟨pre.map runBlock, runBlock (k2, s2, 0 + vals.length), ?_, ?_⟩
      · rw [cdl_to_blocks_cons, hlast, List.map_append]
        rfl
      · show 0 + vals.length = (v :: vals).length - 1
        simp only [List.length_cons]
        omega

/-- C3 witness: the blocks of a concrete three-byte CDL are nonempty. -/
theorem C3_coverage_witness : cdl_to_blocks [0, 1, 3] ≠ [] :=
  (C3_coverage [0, 1, 3] (by decide)).1

/-- C9: within each produced range every byte shares the low-two-bit key
of the range's first byte, consecutive ranges have different keys, and
consequently two adjacent ranges can share a kind: bytes 0x01, 0x03
produce two adjacent Code ranges. -/
theorem C9_runs_keys (cdl : List Nat) :
    (∀ b ∈ cdl_to_blocks cdl, ∀ i, b.rom_address_start ≤ i → i ≤ b.rom_address_end →
        byteAt cdl i &&& PRG_CODE_OR_DATA
          = byteAt cdl b.rom_address_start &&& PRG_CODE_OR_DATA)
    ∧ List.Chain' (fun b1 b2 =>
        byteAt cdl b1.rom_address_start &&& PRG_CODE_OR_DATA
          ≠ byteAt cdl b2.rom_address_start &&& PRG_CODE_OR_DATA) (cdl_to_blocks cdl)
    ∧ cdl_to_blocks [1, 3] = [⟨0, 0, CdlByteType.CODE⟩, ⟨1, 1, CdlByteType.CODE⟩] :=
  ⟨blocks_key_bytes cdl, blocks_chain_key cdl, by decide⟩

/-- C9 witness: in the one-range output for the CDL bytes 0x03, 0x03 the
byte at offset 1 shares the key of the range's first byte. -/
theorem C9_runs_keys_witness :
    byteAt [3, 3] 1 &&& PRG_CODE_OR_DATA = byteAt [3, 3] 0 &&& PRG_CODE_OR_DATA :=
  (C9_runs_keys [3, 3]).1 ⟨0, 1, CdlByteType.CODE⟩ (by decide) 1 (by decide) (by decide)

/-- C6 counterexample: a Code range at offset 0x4000 (reachable whenever
the PRG-ROM is larger than 16KB) maps to address 0x10000, which the
formatter renders with five hex digits, not four. -/
theorem C6_counterexample :
    cdl_block_to_info_lines ⟨0x4000, 0x4000, CdlByteType.CODE⟩
        = ["RANGE \x7b START $10000; END $10000; TYPE CODE; \x7d;"]
    ∧ (format04x (0xC000 + 0x4000)).length = 5 := by
  constructor
  · decide
  · decide

/-- C6 (amended): every address the formatter prints is 0xC000 plus the
range offset, rendered in lowercase hexadecimal zero-padded to a minimum
of four digits; the rendering has exactly four digits whenever the
offset is at most 0x3FFF (address at most 0xFFFF), and wider addresses
print in full. -/
theorem C6_addresses (b : CdlBlock) (hs : b.rom_address_start ≤ 0x3FFF)
    (he : b.rom_address_end ≤ 0x3FFF) :
    (format04x (0xC000 + b.rom_address_start)).length = 4
    ∧ (format04x (0xC000 + b.rom_address_end)).length = 4
    ∧ (∀ c ∈ (format04x (0xC000 + b.rom_address_start)).data, c ∈ lowerHexDigits)
    ∧ (∀ c ∈ (format04x (0xC000 + b.rom_address_end)).data, c ∈ lowerHexDigits)
    ∧ cdl_block_to_info_lines b =
      (if b.byte_type = CdlByteType.CODE then []
       else ["LABEL \x7b ADDR $" ++ format04x (0xC000 + b.rom_address_start)
         ++ "; NAME \"$" ++ format04x (0xC000 + b.rom_address_start)
         ++ "\"; COMMENT \"" ++ byteTypeStr b.byte_type ++ "\"; \x7d;"])
      ++ ["RANGE \x7b START $" ++ format04x (0xC000 + b.rom_address_start)
         ++ "; END $" ++ format04x (0xC000 + b.rom_address_end)
         ++ "; TYPE " ++ (if b.byte_type = CdlByteType.CODE then "CODE" else "BYTETABLE")
         ++ "; \x7d;"] :=
  ⟨format04x_length4 _ (by omega) (by omega), format04x_length4 _ (by omega) (by omega),
    fun c hc => format04x_chars _ c hc, fun c hc => format04x_chars _ c hc,
    cdl_block_lines_eq b⟩

/-- C6 witness: a Code block over offsets 0-1 renders its start address
with exactly four digits. -/
theorem C6_addresses_witness : (format04x (0xC000 + 0)).length = 4 :=
  (C6_addresses ⟨0, 1, CdlByteType.CODE⟩ (by decide) (by decide)).1
